import Mathlib

/-!
Formal model of the ring-median filter from `hugs/imtools/rmedian.py`.

`_ring` builds a square annulus ("ring") footprint from two radii, and
`rmedian` median-filters a 2-D image with that footprint through the
sliding-window median primitive (`scipy.ndimage.median_filter`, used with
its default `reflect` boundary mode and centered origin).

Radii and pixel values are modelled as rationals; machine floats of the
original carry exact real arithmetic here.  The comparisons of the
Euclidean distance `sqrt(i² + j²)` against a radius are expressed by their
exact characterizations over ℚ (`distGT`, `distLE`), proved equivalent to
the corresponding `Real.sqrt` comparisons below.  Fallible steps (the
radius assertion, the dimensionality check of the filter) surface as
`Except` errors.
-/

/-- Truncation toward zero, as Python's `int()` applied to a radius. -/
def truncToZero (q : ℚ) : ℤ := if 0 ≤ q then ⌊q⌋ else -⌊-q⌋

/-- Decides `sqrt (a² + b²) > t`: exact rational characterization of the
comparison of the grid distance `r = sqrt(x**2 + y**2)` with `r_inner`. -/
def distGT (a b : ℤ) (t : ℚ) : Bool :=
  decide (t < 0 ∨ (t ^ 2 : ℚ) < ((a ^ 2 + b ^ 2 : ℤ) : ℚ))

/-- Decides `sqrt (a² + b²) ≤ t`: exact rational characterization of the
comparison of the grid distance with `r_outer`. -/
def distLE (a b : ℤ) (t : ℚ) : Bool :=
  decide (0 ≤ t ∧ ((a ^ 2 + b ^ 2 : ℤ) : ℚ) ≤ (t ^ 2 : ℚ))

/-- One cell of the ring footprint at offset `(a, b)` from the center:
`annulus = (r > r_inner) & (r <= r_outer)`, inverted when `invert`;
the cell holds `1` on the annulus and `0` off it. -/
def ringCell (r_inner r_outer : ℚ) (invert : Bool) (a b : ℤ) : ℤ :=
  let annulus := distGT a b r_inner && distLE a b r_outer
  let annulus' := if invert then !annulus else annulus
  if annulus' then 1 else 0

/-- The coordinate axis of `_ring`:
`x = arange(-int(r_outer), int(r_outer)+1)`. -/
def ringAxis (r_outer : ℚ) : List ℤ :=
  (List.range (2 * truncToZero r_outer + 1).toNat).map
    fun (i : ℕ) => -(truncToZero r_outer) + (i : ℤ)

/-- The footprint grid of `_ring`: cell `(i, j)` classifies the distance
`sqrt(x[i]² + x[j]²)` via `ringCell`. -/
def ringFootprint (r_inner r_outer : ℚ) (invert : Bool) : List (List ℤ) :=
  (ringAxis r_outer).map fun (xi : ℤ) =>
    (ringAxis r_outer).map fun (xj : ℤ) =>
      ringCell r_inner r_outer invert xi xj

/-- Failure of the radius contract `assert r_outer >= r_inner` in `_ring`. -/
inductive RingError where
  | invalidRadius
  deriving DecidableEq, Repr

/-- `_ring(r_inner, r_outer, invert)`: asserts `r_outer >= r_inner`, then
produces the ring footprint. -/
def _ring (r_inner r_outer : ℚ) (invert : Bool) : Except RingError (List (List ℤ)) :=
  if r_outer ≥ r_inner then .ok (ringFootprint r_inner r_outer invert)
  else .error .invalidRadius

/- ### Faithfulness of the distance comparisons to `Real.sqrt` -/

theorem distGT_eq_true_iff (a b : ℤ) (t : ℚ) :
    distGT a b t = true ↔ (t : ℝ) < Real.sqrt ((a : ℝ) ^ 2 + (b : ℝ) ^ 2) := by
  have hs : (0 : ℝ) ≤ (a : ℝ) ^ 2 + (b : ℝ) ^ 2 := by positivity
  unfold distGT
  rw [decide_eq_true_iff]
  constructor
  · rintro (ht | ht)
    · exact lt_of_lt_of_le (by exact_mod_cast ht) (Real.sqrt_nonneg _)
    · rcases lt_or_le t 0 with h0 | h0
      · exact lt_of_lt_of_le (by exact_mod_cast h0) (Real.sqrt_nonneg _)
      · have h0' : (0 : ℝ) ≤ (t : ℝ) := by exact_mod_cast h0
        rw [Real.lt_sqrt h0']
        push_cast at ht ⊢
        exact_mod_cast ht
  · intro h
    rcases lt_or_le t 0 with h0 | h0
    · exact Or.inl h0
    · refine Or.inr ?_
      have h0' : (0 : ℝ) ≤ (t : ℝ) := by exact_mod_cast h0
      rw [Real.lt_sqrt h0'] at h
      push_cast at h ⊢
      exact_mod_cast h

theorem distLE_eq_true_iff (a b : ℤ) (t : ℚ) :
    distLE a b t = true ↔ Real.sqrt ((a : ℝ) ^ 2 + (b : ℝ) ^ 2) ≤ (t : ℝ) := by
  unfold distLE
  rw [decide_eq_true_iff, Real.sqrt_le_iff]
  constructor
  · rintro ⟨h0, h⟩
    refine ⟨by exact_mod_cast h0, ?_⟩
    push_cast at h ⊢
    exact_mod_cast h
  · rintro ⟨h0, h⟩
    refine ⟨by exact_mod_cast h0, ?_⟩
    push_cast at h ⊢
    exact_mod_cast h

/- ### Basic structure of the footprint -/

theorem ringCell_eq_zero_or_one (r_inner r_outer : ℚ) (invert : Bool) (a b : ℤ) :
    ringCell r_inner r_outer invert a b = 0 ∨ ringCell r_inner r_outer invert a b = 1 := by
  cases hg : distGT a b r_inner <;> cases hl : distLE a b r_outer <;>
    cases invert <;> simp [ringCell, hg, hl]

theorem ringCell_eq_one_iff (r_inner r_outer : ℚ) (a b : ℤ) :
    ringCell r_inner r_outer false a b = 1 ↔
      (distGT a b r_inner = true ∧ distLE a b r_outer = true) := by
  cases hg : distGT a b r_inner <;> cases hl : distLE a b r_outer <;>
    simp [ringCell, hg, hl]

theorem ringCell_invert (r_inner r_outer : ℚ) (a b : ℤ) :
    ringCell r_inner r_outer true a b = 1 - ringCell r_inner r_outer false a b := by
  cases hg : distGT a b r_inner <;> cases hl : distLE a b r_outer <;>
    simp [ringCell, hg, hl]

theorem truncToZero_intCast (n : ℤ) : truncToZero (n : ℚ) = n := by
  unfold truncToZero
  rcases le_or_lt 0 n with h | h
  · rw [if_pos (by exact_mod_cast h), Int.floor_intCast]
  · rw [if_neg (not_le.mpr (by exact_mod_cast h)), ← Int.cast_neg, Int.floor_intCast, neg_neg]

theorem truncToZero_eq_floor (q : ℚ) (h : 0 ≤ q) : truncToZero q = ⌊q⌋ := by
  unfold truncToZero
  rw [if_pos h]

theorem ringAxis_length (r_outer : ℚ) :
    (ringAxis r_outer).length = (2 * truncToZero r_outer + 1).toNat := by
  unfold ringAxis
  simp

theorem ringAxis_getElem? (r_outer : ℚ) (u : ℕ)
    (hu : u < (2 * truncToZero r_outer + 1).toNat) :
    (ringAxis r_outer)[u]? = some (-(truncToZero r_outer) + (u : ℤ)) := by
  unfold ringAxis
  rw [List.getElem?_map, List.getElem?_range hu, Option.map_some']

theorem ringFootprint_length (r_inner r_outer : ℚ) (invert : Bool) :
    (ringFootprint r_inner r_outer invert).length = (2 * truncToZero r_outer + 1).toNat := by
  unfold ringFootprint
  simp [ringAxis_length]

theorem ringFootprint_row_length (r_inner r_outer : ℚ) (invert : Bool)
    (row : List ℤ) (hrow : row ∈ ringFootprint r_inner r_outer invert) :
    row.length = (ringFootprint r_inner r_outer invert).length := by
  rw [ringFootprint_length]
  unfold ringFootprint at hrow
  simp only [List.mem_map] at hrow
  obtain ⟨xi, _, rfl⟩ := hrow
  simp [ringAxis_length]

theorem ringFootprint_cell (r_inner r_outer : ℚ) (invert : Bool) (u v : ℕ)
    (hu : u < (ringFootprint r_inner r_outer invert).length)
    (hv : v < (ringFootprint r_inner r_outer invert).length) :
    ((ringFootprint r_inner r_outer invert).getD u []).getD v 0 =
      ringCell r_inner r_outer invert
        (-(truncToZero r_outer) + (u : ℤ)) (-(truncToZero r_outer) + (v : ℤ)) := by
  rw [ringFootprint_length] at hu hv
  have hrow : (ringFootprint r_inner r_outer invert).getD u [] =
      (ringAxis r_outer).map fun (xj : ℤ) =>
        ringCell r_inner r_outer invert (-(truncToZero r_outer) + (u : ℤ)) xj := by
    unfold ringFootprint
    rw [List.getD_eq_getElem?_getD, List.getElem?_map, ringAxis_getElem? r_outer u hu]
    simp
  rw [hrow, List.getD_eq_getElem?_getD, List.getElem?_map, ringAxis_getElem? r_outer v hv]
  simp

/- ### The image model and the sliding-window median primitive -/

/-- An n-dimensional numeric array: a shape and row-major flat data. -/
structure NDArray where
  shape : List ℕ
  flat : List ℚ
  deriving DecidableEq, Repr

/-- Failures surfaced by `rmedian`: the radius assertion of `_ring`, the
dimensionality check of the filter primitive, and the primitive's
rejection of a footprint without any active cell. -/
inductive RmedianError where
  | invalidRadius
  | shapeError
  | emptyFootprint
  deriving DecidableEq, Repr

/-- Element `(i, j)` of a 2-D array (row-major). -/
def get2 (a : NDArray) (i j : ℕ) : ℚ :=
  a.flat.getD (i * a.shape.getD 1 0 + j) 0

/-- The `reflect` boundary mode of the filter primitive: an arbitrary
integer index is folded into `[0, n)` following the extension pattern
`(d c b a | a b c d | d c b a)`. -/
def reflectIdx (n : ℕ) (i : ℤ) : ℕ :=
  let m := i % (2 * (n : ℤ))
  (if m < (n : ℤ) then m else 2 * (n : ℤ) - 1 - m).toNat

/-- Pixel lookup with `reflect` boundary handling on both axes. -/
def reflectGet (a : NDArray) (i j : ℤ) : ℚ :=
  get2 a (reflectIdx (a.shape.getD 0 0) i) (reflectIdx (a.shape.getD 1 0) j)

/-- The nonzero cells of a footprint, as offsets from its center
(the filter primitive centers the footprint: origin `size // 2`). -/
def fpOffsets (fp : List (List ℤ)) : List (ℤ × ℤ) :=
  ((List.range fp.length).map fun (u : ℕ) =>
    (List.range (fp.headD []).length).filterMap fun (v : ℕ) =>
      if (fp.getD u []).getD v 0 ≠ 0 then
        some ((u : ℤ) - ((fp.length / 2 : ℕ) : ℤ),
              (v : ℤ) - (((fp.headD []).length / 2 : ℕ) : ℤ))
      else none).flatten

/-- The window of pixel values a footprint selects around position `(i, j)`,
with `reflect` boundary handling. -/
def windowValues (a : NDArray) (offs : List (ℤ × ℤ)) (i j : ℕ) : List ℚ :=
  offs.map fun o => reflectGet a ((i : ℤ) + o.1) ((j : ℤ) + o.2)

/-- The statistical median of a list of values: middle element of the
sorted list, or the mean of the two middle elements for an even count. -/
def statMedian (l : List ℚ) : ℚ :=
  let s := List.insertionSort (· ≤ ·) l
  if l.length = 0 then 0
  else if l.length % 2 = 1 then s.getD (l.length / 2) 0
  else (s.getD (l.length / 2 - 1) 0 + s.getD (l.length / 2) 0) / 2

/-- Model of the sliding-window median primitive
(`scipy.ndimage.median_filter` on a 2-D image, default `reflect` mode,
centered origin): rejects input that is not 2-dimensional, rejects a
footprint with no active cell, and otherwise computes at every pixel the
median of the values selected by the footprint's nonzero cells. -/
def median_filter (data : NDArray) (fp : List (List ℤ)) : Except RmedianError NDArray :=
  if data.shape.length ≠ 2 then .error .shapeError
  else
    let offs := fpOffsets fp
    if offs.isEmpty then .error .emptyFootprint
    else
      let n0 := data.shape.getD 0 0
      let n1 := data.shape.getD 1 0
      .ok ⟨data.shape,
        (List.range (n0 * n1)).map fun (k : ℕ) =>
          statMedian (windowValues data offs (k / n1) (k % n1))⟩

/-- `rmedian(data, r_inner, r_outer, **kwargs)`: build the ring footprint
(propagating its radius-contract failure), then median-filter with it. -/
def rmedian (data : NDArray) (r_inner r_outer : ℚ) (invert : Bool) :
    Except RmedianError NDArray :=
  match _ring r_inner r_outer invert with
  | .error _ => .error .invalidRadius
  | .ok fp => median_filter data fp

/-- Spec-side description of the window at `(i, j)`: the input pixels
selected by the `1`-valued cells of the non-inverted ring footprint
centered at `(i, j)` (with `reflect` boundary handling). -/
def selectedValues (data : NDArray) (r_inner r_outer : ℚ) (i j : ℕ) : List ℚ :=
  ((List.range (ringFootprint r_inner r_outer false).length).map fun (u : ℕ) =>
    (List.range (ringFootprint r_inner r_outer false).length).filterMap fun (v : ℕ) =>
      if ((ringFootprint r_inner r_outer false).getD u []).getD v 0 = 1 then
        some (reflectGet data
          ((i : ℤ) + ((u : ℤ) - (((ringFootprint r_inner r_outer false).length / 2 : ℕ) : ℤ)))
          ((j : ℤ) + ((v : ℤ) - (((ringFootprint r_inner r_outer false).length / 2 : ℕ) : ℤ))))
      else none).flatten

/- ### Helper lemmas about the filter machinery -/

theorem statMedian_of_all_eq (l : List ℚ) (c : ℚ) (hne : l ≠ [])
    (hall : ∀ x ∈ l, x = c) : statMedian l = c := by
  have hperm : (List.insertionSort (· ≤ ·) l).Perm l := List.perm_insertionSort _ l
  have hlen : (List.insertionSort (· ≤ ·) l).length = l.length := hperm.length_eq
  have hpos : 0 < l.length := List.length_pos.mpr hne
  have hall' : ∀ x ∈ List.insertionSort (· ≤ ·) l, x = c := fun x hx =>
    hall x (hperm.mem_iff.mp hx)
  have hgetD : ∀ k : ℕ, k < l.length → (List.insertionSort (· ≤ ·) l).getD k 0 = c := by
    intro k hk
    have hk' : k < (List.insertionSort (· ≤ ·) l).length := by omega
    rw [List.getD_eq_getElem?_getD, List.getElem?_eq_getElem hk']
    exact hall' _ (List.getElem_mem hk')
  unfold statMedian
  rw [if_neg (by omega)]
  rcases Nat.even_or_odd l.length with he | ho
  · have hm : l.length % 2 = 0 := Nat.even_iff.mp he
    rw [if_neg (by omega)]
    rw [hgetD _ (by omega), hgetD _ (by omega)]
    ring
  · have hm : l.length % 2 = 1 := Nat.odd_iff.mp ho
    rw [if_pos hm]
    exact hgetD _ (by omega)

theorem reflectIdx_lt (n : ℕ) (hn : 0 < n) (i : ℤ) : reflectIdx n i < n := by
  unfold reflectIdx
  have h2n : (0 : ℤ) < 2 * (n : ℤ) := by positivity
  have hm0 : 0 ≤ i % (2 * (n : ℤ)) := Int.emod_nonneg i (by omega)
  have hm1 : i % (2 * (n : ℤ)) < 2 * (n : ℤ) := Int.emod_lt_of_pos i h2n
  dsimp only
  split <;> omega

theorem reflectIdx_of_lt (n : ℕ) (i : ℤ) (h0 : 0 ≤ i) (hi : i < (n : ℤ)) :
    (reflectIdx n i : ℤ) = i := by
  unfold reflectIdx
  have hmod : i % (2 * (n : ℤ)) = i := Int.emod_eq_of_lt h0 (by omega)
  dsimp only
  rw [hmod, if_pos hi]
  omega

theorem getD_map_range (m : ℕ) (f : ℕ → ℚ) (k : ℕ) (hk : k < m) :
    ((List.range m).map f).getD k 0 = f k := by
  rw [List.getD_eq_getElem?_getD, List.getElem?_map, List.getElem?_range hk]
  rfl

theorem median_filter_ok_elim (data : NDArray) (fp : List (List ℤ)) (out : NDArray)
    (hok : median_filter data fp = .ok out) :
    data.shape.length = 2 ∧ (fpOffsets fp).isEmpty = false ∧
      out = ⟨data.shape,
        (List.range (data.shape.getD 0 0 * data.shape.getD 1 0)).map fun (k : ℕ) =>
          statMedian (windowValues data (fpOffsets fp)
            (k / data.shape.getD 1 0) (k % data.shape.getD 1 0))⟩ := by
  unfold median_filter at hok
  split at hok
  · exact absurd hok (by simp)
  · rename_i hdim
    dsimp only at hok
    split at hok
    · exact absurd hok (by simp)
    · rename_i hne
      refine ⟨by omega, by simpa using hne, ?_⟩
      exact (Except.ok.injEq _ _).mp hok |>.symm

theorem median_filter_pixel (data : NDArray) (fp : List (List ℤ)) (out : NDArray)
    (n0 n1 : ℕ) (hshape : data.shape = [n0, n1])
    (hok : median_filter data fp = .ok out)
    (i j : ℕ) (hi : i < n0) (hj : j < n1) :
    out.shape = data.shape ∧
      get2 out i j = statMedian (windowValues data (fpOffsets fp) i j) := by
  obtain ⟨-, -, rfl⟩ := median_filter_ok_elim data fp out hok
  refine ⟨rfl, ?_⟩
  have hg0 : data.shape.getD 0 0 = n0 := by rw [hshape]; rfl
  have hg1 : data.shape.getD 1 0 = n1 := by rw [hshape]; rfl
  have hk : i * n1 + j < n0 * n1 := by
    calc i * n1 + j < (i + 1) * n1 := by
          have : (i + 1) * n1 = i * n1 + n1 := by ring
          omega
      _ ≤ n0 * n1 := Nat.mul_le_mul_right n1 (by omega)
  have hdiv : (i * n1 + j) / n1 = i := by
    rw [mul_comm i n1, Nat.mul_add_div (by omega)]
    simp [Nat.div_eq_of_lt hj]
  have hmod : (i * n1 + j) % n1 = j := by
    rw [mul_comm i n1, Nat.mul_add_mod]
    exact Nat.mod_eq_of_lt hj
  unfold get2
  dsimp only
  rw [hg0, hg1, getD_map_range _ _ _ hk, hdiv, hmod]

theorem rmedian_ok_elim (data : NDArray) (r_inner r_outer : ℚ) (invert : Bool)
    (out : NDArray) (hok : rmedian data r_inner r_outer invert = .ok out) :
    median_filter data (ringFootprint r_inner r_outer invert) = .ok out := by
  unfold rmedian _ring at hok
  by_cases h : r_outer ≥ r_inner
  · rw [if_pos h] at hok
    exact hok
  · rw [if_neg h] at hok
    exact absurd hok (by simp)

theorem ringFootprint_headD_length (r_inner r_outer : ℚ) (invert : Bool) :
    ((ringFootprint r_inner r_outer invert).headD []).length =
      (ringFootprint r_inner r_outer invert).length := by
  cases hfp : ringFootprint r_inner r_outer invert with
  | nil => rfl
  | cons a t =>
    have ha : a ∈ ringFootprint r_inner r_outer invert := by rw [hfp]; exact List.mem_cons_self a t
    have := ringFootprint_row_length r_inner r_outer invert a ha
    rw [hfp] at this
    simpa using this

theorem fpOffsets_isEmpty_eq_false (fp : List (List ℤ)) (u v : ℕ)
    (hu : u < fp.length) (hv : v < (fp.headD []).length)
    (hcell : (fp.getD u []).getD v 0 ≠ 0) :
    (fpOffsets fp).isEmpty = false := by
  rw [List.isEmpty_eq_false]
  intro hnil
  have hmem : ((u : ℤ) - ((fp.length / 2 : ℕ) : ℤ),
      (v : ℤ) - (((fp.headD []).length / 2 : ℕ) : ℤ)) ∈ fpOffsets fp := by
    unfold fpOffsets
    rw [List.mem_flatten]
    refine ⟨_, List.mem_map.mpr ⟨u, List.mem_range.mpr hu, rfl⟩, ?_⟩
    rw [List.mem_filterMap]
    exact ⟨v, List.mem_range.mpr hv, by rw [if_pos hcell]⟩
  rw [hnil] at hmem
  exact absurd hmem (List.not_mem_nil _)

theorem median_filter_ok_of (data : NDArray) (fp : List (List ℤ))
    (hdim : data.shape.length = 2) (hne : (fpOffsets fp).isEmpty = false) :
    median_filter data fp =
      .ok ⟨data.shape,
        (List.range (data.shape.getD 0 0 * data.shape.getD 1 0)).map fun (k : ℕ) =>
          statMedian (windowValues data (fpOffsets fp)
            (k / data.shape.getD 1 0) (k % data.shape.getD 1 0))⟩ := by
  unfold median_filter
  rw [if_neg (by omega)]
  dsimp only
  rw [if_neg (by rw [hne]; exact Bool.false_ne_true)]

theorem windowValues_ring_eq_selected (data : NDArray) (r_inner r_outer : ℚ) (i j : ℕ) :
    windowValues data (fpOffsets (ringFootprint r_inner r_outer false)) i j =
      selectedValues data r_inner r_outer i j := by
  unfold windowValues fpOffsets selectedValues
  rw [ringFootprint_headD_length]
  rw [List.map_flatten, List.map_map]
  congr 1
  apply List.map_congr_left
  intro u hu
  rw [List.mem_range] at hu
  dsimp only [Function.comp]
  rw [List.map_filterMap]
  apply List.filterMap_congr
  intro v hv
  rw [List.mem_range] at hv
  rcases ringCell_eq_zero_or_one r_inner r_outer false
      (-(truncToZero r_outer) + (u : ℤ)) (-(truncToZero r_outer) + (v : ℤ)) with hc | hc
  · rw [ringFootprint_cell r_inner r_outer false u v hu hv, hc]
    norm_num
  · rw [ringFootprint_cell r_inner r_outer false u v hu hv, hc]
    norm_num

theorem reflect_ext_eq (n : ℕ) (hn : 0 < n) (e : ℤ → ℚ)
    (hL : ∀ i : ℤ, e (-1 - i) = e i)
    (hR : ∀ i : ℤ, e (2 * (n : ℤ) - 1 - i) = e i) :
    ∀ i : ℤ, e i = e ((reflectIdx n i : ℕ) : ℤ) := by
  have hper : ∀ i : ℤ, e (i + 2 * (n : ℤ)) = e i := by
    intro i
    have h1 : e (2 * (n : ℤ) - 1 - (-1 - i)) = e (-1 - i) := hR (-1 - i)
    rw [hL i] at h1
    calc e (i + 2 * (n : ℤ)) = e (2 * (n : ℤ) - 1 - (-1 - i)) := by ring_nf
      _ = e i := h1
  have hperk : ∀ (k : ℤ) (i : ℤ), e (i + 2 * (n : ℤ) * k) = e i := by
    intro k
    induction k using Int.induction_on with
    | hz => intro i; simp
    | hp m ih =>
      intro i
      have : i + 2 * (n : ℤ) * ((m : ℤ) + 1) = (i + 2 * (n : ℤ) * (m : ℤ)) + 2 * (n : ℤ) := by
        ring
      rw [this, hper, ih]
    | hn m ih =>
      intro i
      have heq : i + 2 * (n : ℤ) * (-(m : ℤ)) =
          (i + 2 * (n : ℤ) * (-(m : ℤ) - 1)) + 2 * (n : ℤ) := by
        ring
      have hstep := hper (i + 2 * (n : ℤ) * (-(m : ℤ) - 1))
      rw [← heq] at hstep
      rw [← hstep]
      exact ih i
  intro i
  have h2n : (0 : ℤ) < 2 * (n : ℤ) := by positivity
  have hsplit : i = i % (2 * (n : ℤ)) + 2 * (n : ℤ) * (i / (2 * (n : ℤ))) := by
    have := Int.ediv_add_emod i (2 * (n : ℤ))
    omega
  have hm0 : 0 ≤ i % (2 * (n : ℤ)) := Int.emod_nonneg i (by omega)
  have hm1 : i % (2 * (n : ℤ)) < 2 * (n : ℤ) := Int.emod_lt_of_pos i h2n
  have hbase : e i = e (i % (2 * (n : ℤ))) := by
    conv_lhs => rw [hsplit]
    rw [hperk]
  unfold reflectIdx
  dsimp only
  by_cases hcase : i % (2 * (n : ℤ)) < (n : ℤ)
  · rw [if_pos hcase, hbase]
    congr 1
    omega
  · rw [if_neg hcase, hbase]
    have h3 : e (-1 - i % (2 * (n : ℤ))) = e (i % (2 * (n : ℤ))) := hL _
    have h4 : e (-1 - i % (2 * (n : ℤ)) + 2 * (n : ℤ)) = e (-1 - i % (2 * (n : ℤ))) := hper _
    rw [← h3, ← h4]
    congr 1
    omega

/- ### The claims -/

/-- C2: for `r_inner ≥ 0` and `invert = false`, a footprint cell at offset
`(a, b)` from the center is `1` iff its Euclidean distance
`d = sqrt(a² + b²)` satisfies `d > r_inner` and `d ≤ r_outer` (inner radius
strictly excluded, outer radius included), and the center cell (`d = 0`)
is always `0` regardless of `r_inner`. -/
theorem ringCell_annulus_membership (r_inner r_outer : ℚ) (a b : ℤ)
    (h0 : 0 ≤ r_inner) :
    (ringCell r_inner r_outer false a b = 1 ↔
      ((r_inner : ℝ) < Real.sqrt ((a : ℝ) ^ 2 + (b : ℝ) ^ 2) ∧
        Real.sqrt ((a : ℝ) ^ 2 + (b : ℝ) ^ 2) ≤ (r_outer : ℝ))) ∧
    ringCell r_inner r_outer false 0 0 = 0 := by
  constructor
  · rw [ringCell_eq_one_iff, distGT_eq_true_iff, distLE_eq_true_iff]
  · have hg : distGT 0 0 r_inner = false := by
      unfold distGT
      rw [decide_eq_false_iff_not]
      push_cast
      rintro (h | h)
      · exact absurd h (not_lt.mpr h0)
      · nlinarith [sq_nonneg r_inner]
    simp [ringCell, hg]

/-- C2 witness: the membership criterion instantiated at `r_inner = 2`,
`r_outer = 5` and offset `(3, 4)` (distance exactly `5`). -/
theorem ringCell_annulus_membership_witness :
    (0 : ℚ) ≤ 2 ∧
      ((ringCell 2 5 false 3 4 = 1 ↔
        (((2 : ℚ) : ℝ) < Real.sqrt (((3 : ℤ) : ℝ) ^ 2 + ((4 : ℤ) : ℝ) ^ 2) ∧
          Real.sqrt (((3 : ℤ) : ℝ) ^ 2 + ((4 : ℤ) : ℝ) ^ 2) ≤ ((5 : ℚ) : ℝ))) ∧
        ringCell 2 5 false 0 0 = 0) :=
  ⟨by norm_num, ringCell_annulus_membership 2 5 3 4 (by norm_num)⟩

/-- C3: for valid radii the footprint is a square array of odd side
`2⌊r_outer⌋+1` (the axis is sized by truncation), while the annulus
membership test compares distances with the original, possibly fractional,
radii. -/
theorem ringFootprint_size_exact_membership (r_inner r_outer : ℚ) (invert : Bool)
    (h0 : 0 ≤ r_inner) (hle : r_inner ≤ r_outer) :
    (ringFootprint r_inner r_outer invert).length = 2 * ⌊r_outer⌋.toNat + 1 ∧
    (∀ row ∈ ringFootprint r_inner r_outer invert,
      row.length = 2 * ⌊r_outer⌋.toNat + 1) ∧
    (∀ u v : ℕ,
      ((ringFootprint r_inner r_outer false).getD u []).getD v 0 = 1 ↔
        (u < 2 * ⌊r_outer⌋.toNat + 1 ∧ v < 2 * ⌊r_outer⌋.toNat + 1 ∧
          (r_inner : ℝ) < Real.sqrt
            ((((u : ℤ) - ⌊r_outer⌋ : ℤ) : ℝ) ^ 2 + (((v : ℤ) - ⌊r_outer⌋ : ℤ) : ℝ) ^ 2) ∧
          Real.sqrt
            ((((u : ℤ) - ⌊r_outer⌋ : ℤ) : ℝ) ^ 2 + (((v : ℤ) - ⌊r_outer⌋ : ℤ) : ℝ) ^ 2) ≤
            (r_outer : ℝ))) := by
  have hro : (0 : ℚ) ≤ r_outer := le_trans h0 hle
  have htz : truncToZero r_outer = ⌊r_outer⌋ := truncToZero_eq_floor r_outer hro
  have hfl : (0 : ℤ) ≤ ⌊r_outer⌋ := Int.floor_nonneg.mpr hro
  have hlen : (ringFootprint r_inner r_outer invert).length = 2 * ⌊r_outer⌋.toNat + 1 := by
    rw [ringFootprint_length, htz]
    omega
  have hlenf : (ringFootprint r_inner r_outer false).length = 2 * ⌊r_outer⌋.toNat + 1 := by
    rw [ringFootprint_length, htz]
    omega
  refine ⟨hlen, ?_, ?_⟩
  · intro row hrow
    rw [ringFootprint_row_length r_inner r_outer invert row hrow, hlen]
  · intro u v
    constructor
    · intro hcell
      by_cases hu : u < 2 * ⌊r_outer⌋.toNat + 1
      · by_cases hv : v < 2 * ⌊r_outer⌋.toNat + 1
        · refine ⟨hu, hv, ?_⟩
          rw [ringFootprint_cell r_inner r_outer false u v (by omega) (by omega), htz,
            ringCell_eq_one_iff, distGT_eq_true_iff, distLE_eq_true_iff] at hcell
          have harg : -⌊r_outer⌋ + (u : ℤ) = (u : ℤ) - ⌊r_outer⌋ := by ring
          have harg' : -⌊r_outer⌋ + (v : ℤ) = (v : ℤ) - ⌊r_outer⌋ := by ring
          rw [harg, harg'] at hcell
          exact hcell
        · have hurange : u < (ringFootprint r_inner r_outer false).length := by omega
          have hrowlen : ((ringFootprint r_inner r_outer false).getD u []).length =
              2 * ⌊r_outer⌋.toNat + 1 := by
            rw [List.getD_eq_getElem?_getD, List.getElem?_eq_getElem hurange, Option.getD_some,
              ringFootprint_row_length r_inner r_outer false _ (List.getElem_mem hurange), hlenf]
          rw [List.getD_eq_default _ _ (by rw [hrowlen]; omega)] at hcell
          exact absurd hcell (by norm_num)
      · rw [List.getD_eq_default (ringFootprint r_inner r_outer false) []
          (show (ringFootprint r_inner r_outer false).length ≤ u by rw [hlenf]; omega)] at hcell
        simp at hcell
    · rintro ⟨hu, hv, hmem⟩
      rw [ringFootprint_cell r_inner r_outer false u v (by omega) (by omega), htz,
        ringCell_eq_one_iff, distGT_eq_true_iff, distLE_eq_true_iff]
      have harg : -⌊r_outer⌋ + (u : ℤ) = (u : ℤ) - ⌊r_outer⌋ := by ring
      have harg' : -⌊r_outer⌋ + (v : ℤ) = (v : ℤ) - ⌊r_outer⌋ := by ring
      rw [harg, harg']
      exact hmem

/-- C3 witness: instantiated at the fractional radii `r_inner = 1/2`,
`r_outer = 3/2` (the axis truncates to `⌊3/2⌋ = 1`, side `3`). -/
theorem ringFootprint_size_exact_membership_witness :
    (0 : ℚ) ≤ 1 / 2 ∧
      ((ringFootprint (1 / 2) (3 / 2) false).length = 2 * ⌊(3 / 2 : ℚ)⌋.toNat + 1 ∧
      (∀ row ∈ ringFootprint (1 / 2) (3 / 2) false,
        row.length = 2 * ⌊(3 / 2 : ℚ)⌋.toNat + 1) ∧
      (∀ u v : ℕ,
        ((ringFootprint (1 / 2) (3 / 2) false).getD u []).getD v 0 = 1 ↔
          (u < 2 * ⌊(3 / 2 : ℚ)⌋.toNat + 1 ∧ v < 2 * ⌊(3 / 2 : ℚ)⌋.toNat + 1 ∧
            ((1 / 2 : ℚ) : ℝ) < Real.sqrt
              ((((u : ℤ) - ⌊(3 / 2 : ℚ)⌋ : ℤ) : ℝ) ^ 2 +
                (((v : ℤ) - ⌊(3 / 2 : ℚ)⌋ : ℤ) : ℝ) ^ 2) ∧
            Real.sqrt
              ((((u : ℤ) - ⌊(3 / 2 : ℚ)⌋ : ℤ) : ℝ) ^ 2 +
                (((v : ℤ) - ⌊(3 / 2 : ℚ)⌋ : ℤ) : ℝ) ^ 2) ≤
              ((3 / 2 : ℚ) : ℝ)))) :=
  ⟨by norm_num, ringFootprint_size_exact_membership (1 / 2) (3 / 2) false
    (by norm_num) (by norm_num)⟩

/-- C4: footprint generation fails with `invalidRadius` exactly when
`r_outer < r_inner`, before any computation; `rmedian` propagates the
error, and in particular `rmedian` with `r_inner = 5, r_outer = 2`
fails with `invalidRadius` and performs no filtering work. -/
theorem ring_invalid_radius (data : NDArray) (r_inner r_outer : ℚ) (invert : Bool) :
    (_ring r_inner r_outer invert = .error .invalidRadius ↔ r_outer < r_inner) ∧
    (r_outer < r_inner → rmedian data r_inner r_outer invert = .error .invalidRadius) ∧
    rmedian data 5 2 invert = .error .invalidRadius := by
  have hiff : ∀ a b : ℚ, (_ring a b invert = .error .invalidRadius ↔ b < a) := by
    intro a b
    unfold _ring
    by_cases h : b ≥ a
    · rw [if_pos h]
      simp [not_lt.mpr h]
    · rw [if_neg h]
      simp [lt_of_not_ge h]
  have hprop : ∀ a b : ℚ, b < a → rmedian data a b invert = .error .invalidRadius := by
    intro a b hab
    unfold rmedian
    rw [show _ring a b invert = .error .invalidRadius from (hiff a b).mpr hab]
  exact ⟨hiff r_inner r_outer, hprop r_inner r_outer, hprop 5 2 (by norm_num)⟩

/-- C4 witness: the propagation clause applied at the concrete call
`rmedian([[0]], 5, 2)`. -/
theorem ring_invalid_radius_witness :
    rmedian ⟨[1, 1], [0]⟩ 5 2 false = .error .invalidRadius :=
  (ring_invalid_radius ⟨[1, 1], [0]⟩ 5 2 false).2.1 (by norm_num)

/-- C5: for valid radii, an input that is not 2-dimensional makes
`rmedian` fail with `shapeError` at the boundary, before any filtering. -/
theorem rmedian_shape_error (data : NDArray) (r_inner r_outer : ℚ) (invert : Bool)
    (hr : r_inner ≤ r_outer) (hdim : data.shape.length ≠ 2) :
    rmedian data r_inner r_outer invert = .error .shapeError := by
  unfold rmedian
  rw [show _ring r_inner r_outer invert = .ok (ringFootprint r_inner r_outer invert) from by
    unfold _ring; rw [if_pos hr]]
  dsimp only
  unfold median_filter
  rw [if_pos hdim]

/-- C5 witness: a 1-dimensional input of three pixels is rejected. -/
theorem rmedian_shape_error_witness :
    rmedian ⟨[3], [1, 2, 3]⟩ 1 2 false = .error .shapeError :=
  rmedian_shape_error ⟨[3], [1, 2, 3]⟩ 1 2 false (by norm_num) (by simp)

/-- C6: for valid radii the generated footprint is invariant under
transposition and under 180° rotation. -/
theorem ringFootprint_symmetric (r_inner r_outer : ℚ) (invert : Bool)
    (hle : r_inner ≤ r_outer) :
    ∀ u v : ℕ, u < (ringFootprint r_inner r_outer invert).length →
      v < (ringFootprint r_inner r_outer invert).length →
      ((ringFootprint r_inner r_outer invert).getD u []).getD v 0 =
        ((ringFootprint r_inner r_outer invert).getD v []).getD u 0 ∧
      ((ringFootprint r_inner r_outer invert).getD u []).getD v 0 =
        ((ringFootprint r_inner r_outer invert).getD
          ((ringFootprint r_inner r_outer invert).length - 1 - u) []).getD
          ((ringFootprint r_inner r_outer invert).length - 1 - v) 0 := by
  intro u v hu hv
  have hswap : ∀ a b : ℤ, ringCell r_inner r_outer invert a b =
      ringCell r_inner r_outer invert b a := by
    intro a b
    unfold ringCell distGT distLE
    rw [show a ^ 2 + b ^ 2 = b ^ 2 + a ^ 2 from add_comm _ _]
  have hneg : ∀ a b : ℤ, ringCell r_inner r_outer invert a b =
      ringCell r_inner r_outer invert (-a) (-b) := by
    intro a b
    unfold ringCell distGT distLE
    rw [show a ^ 2 = (-a) ^ 2 from (neg_sq a).symm, show b ^ 2 = (-b) ^ 2 from (neg_sq b).symm]
  have hlen := ringFootprint_length r_inner r_outer invert
  set R := truncToZero r_outer with hR
  rcases lt_or_le R 0 with hRneg | hRpos
  · omega
  · have hu' : u < (2 * R + 1).toNat := by omega
    have hv' : v < (2 * R + 1).toNat := by omega
    constructor
    · rw [ringFootprint_cell r_inner r_outer invert u v hu hv,
        ringFootprint_cell r_inner r_outer invert v u hv hu]
      exact hswap _ _
    · rw [ringFootprint_cell r_inner r_outer invert u v hu hv,
        ringFootprint_cell r_inner r_outer invert
          ((ringFootprint r_inner r_outer invert).length - 1 - u)
          ((ringFootprint r_inner r_outer invert).length - 1 - v)
          (by omega) (by omega)]
      have hcu : (((ringFootprint r_inner r_outer invert).length - 1 - u : ℕ) : ℤ) =
          2 * R - (u : ℤ) := by omega
      have hcv : (((ringFootprint r_inner r_outer invert).length - 1 - v : ℕ) : ℤ) =
          2 * R - (v : ℤ) := by omega
      rw [hcu, hcv, show -R + (2 * R - (u : ℤ)) = -(-R + (u : ℤ)) from by ring,
        show -R + (2 * R - (v : ℤ)) = -(-R + (v : ℤ)) from by ring]
      exact hneg _ _

/-- C6 witness: symmetry of the `r_inner = 1, r_outer = 2` footprint at
cell `(0, 1)`. -/
theorem ringFootprint_symmetric_witness :
    ((ringFootprint 1 2 false).getD 0 []).getD 1 0 =
      ((ringFootprint 1 2 false).getD 1 []).getD 0 0 ∧
    ((ringFootprint 1 2 false).getD 0 []).getD 1 0 =
      ((ringFootprint 1 2 false).getD ((ringFootprint 1 2 false).length - 1 - 0) []).getD
        ((ringFootprint 1 2 false).length - 1 - 1) 0 :=
  ringFootprint_symmetric 1 2 false (by norm_num) 0 1
    (by rw [ringFootprint_length, show truncToZero 2 = 2 from by norm_num [truncToZero]]; norm_num)
    (by rw [ringFootprint_length, show truncToZero 2 = 2 from by norm_num [truncToZero]]; norm_num)

/-- C7: for integer radii `0 ≤ p < q` the non-inverted footprint contains
at least one `1`-cell; in the degenerate case of equal integer radii the
non-inverted footprint has no `1`-cell, the inverted footprint is all
`1`s, and the degenerate call is allowed rather than an error. -/
theorem ringFootprint_degenerate (p q : ℤ) (h0 : 0 ≤ p) (hpq : p < q) :
    (∃ row ∈ ringFootprint (p : ℚ) (q : ℚ) false, (1 : ℤ) ∈ row) ∧
    (∀ row ∈ ringFootprint (p : ℚ) (p : ℚ) false, ∀ x ∈ row, x = 0) ∧
    (∀ row ∈ ringFootprint (p : ℚ) (p : ℚ) true, ∀ x ∈ row, x = 1) ∧
    _ring (p : ℚ) (p : ℚ) false = .ok (ringFootprint (p : ℚ) (p : ℚ) false) := by
  have hdeg : ∀ a b : ℤ, ringCell (p : ℚ) (p : ℚ) false a b = 0 := by
    intro a b
    rcases ringCell_eq_zero_or_one (p : ℚ) (p : ℚ) false a b with h | h
    · exact h
    · exfalso
      rw [ringCell_eq_one_iff] at h
      obtain ⟨hg, hl⟩ := h
      unfold distGT at hg
      unfold distLE at hl
      rw [decide_eq_true_iff] at hg hl
      rcases hg with hg | hg
      · exact absurd hg (not_lt.mpr (by exact_mod_cast h0))
      · exact absurd (lt_of_lt_of_le hg hl.2) (lt_irrefl _)
  refine ⟨?_, ?_, ?_, ?_⟩
  · have htz : truncToZero (q : ℚ) = q := truncToZero_intCast q
    have hq1 : 0 < q := by omega
    refine ⟨(ringAxis (q : ℚ)).map fun (xj : ℤ) => ringCell (p : ℚ) (q : ℚ) false 0 xj, ?_, ?_⟩
    · unfold ringFootprint
      refine List.mem_map.mpr ⟨0, ?_, rfl⟩
      unfold ringAxis
      refine List.mem_map.mpr ⟨q.toNat, List.mem_range.mpr ?_, ?_⟩
      · rw [htz]; omega
      · rw [htz]; omega
    · refine List.mem_map.mpr ⟨q, ?_, ?_⟩
      · unfold ringAxis
        refine List.mem_map.mpr ⟨(2 * q).toNat, List.mem_range.mpr ?_, ?_⟩
        · rw [htz]; omega
        · rw [htz]; omega
      · rw [ringCell_eq_one_iff]
        constructor
        · unfold distGT
          rw [decide_eq_true_iff]
          refine Or.inr ?_
          push_cast
          have : (p : ℚ) < (q : ℚ) := by exact_mod_cast hpq
          have hp' : (0 : ℚ) ≤ (p : ℚ) := by exact_mod_cast h0
          nlinarith
        · unfold distLE
          rw [decide_eq_true_iff]
          refine ⟨by exact_mod_cast le_of_lt hq1, ?_⟩
          push_cast
          norm_num
  · intro row hrow x hx
    unfold ringFootprint at hrow
    obtain ⟨xi, _, rfl⟩ := List.mem_map.mp hrow
    obtain ⟨xj, _, rfl⟩ := List.mem_map.mp hx
    exact hdeg xi xj
  · intro row hrow x hx
    unfold ringFootprint at hrow
    obtain ⟨xi, _, rfl⟩ := List.mem_map.mp hrow
    obtain ⟨xj, _, rfl⟩ := List.mem_map.mp hx
    rw [ringCell_invert, hdeg xi xj]
    norm_num
  · unfold _ring
    rw [if_pos (le_refl _)]

/-- C7 witness: instantiated at `p = 0, q = 1`. -/
theorem ringFootprint_degenerate_witness :
    (∃ row ∈ ringFootprint ((0 : ℤ) : ℚ) ((1 : ℤ) : ℚ) false, (1 : ℤ) ∈ row) ∧
    (∀ row ∈ ringFootprint ((0 : ℤ) : ℚ) ((0 : ℤ) : ℚ) false, ∀ x ∈ row, x = 0) ∧
    (∀ row ∈ ringFootprint ((0 : ℤ) : ℚ) ((0 : ℤ) : ℚ) true, ∀ x ∈ row, x = 1) ∧
    _ring ((0 : ℤ) : ℚ) ((0 : ℤ) : ℚ) false =
      .ok (ringFootprint ((0 : ℤ) : ℚ) ((0 : ℤ) : ℚ) false) :=
  ringFootprint_degenerate 0 1 (by norm_num) (by norm_num)

/-- C9 counterexample: a negative inner radius is not rejected — the call
`_ring(-1, 1)` silently produces a (3 × 3) footprint instead of failing
with an input-contract error. -/
theorem ring_accepts_negative_radius :
    _ring (-1 : ℚ) 1 false = .ok (ringFootprint (-1 : ℚ) 1 false) ∧
    (ringFootprint (-1 : ℚ) 1 false).length = 3 := by
  constructor
  · unfold _ring
    rw [if_pos (by norm_num)]
  · rw [ringFootprint_length, show truncToZero 1 = 1 from by norm_num [truncToZero]]
    decide

/-- C9 amended: the only radius contract the code enforces is the ordering
`r_outer ≥ r_inner`; negative radii are not validated, and a call with a
negative inner radius silently produces a footprint. -/
theorem ring_no_negativity_check (r_inner r_outer : ℚ) (invert : Bool)
    (hneg : r_inner < 0) (hle : r_inner ≤ r_outer) :
    _ring r_inner r_outer invert = .ok (ringFootprint r_inner r_outer invert) := by
  unfold _ring
  rw [if_pos hle]

/-- C9 amended witness: `_ring(-2, 2)` succeeds. -/
theorem ring_no_negativity_check_witness :
    _ring (-2 : ℚ) 2 false = .ok (ringFootprint (-2 : ℚ) 2 false) :=
  ring_no_negativity_check (-2) 2 false (by norm_num) (by norm_num)

theorem idx2_lt (i j n0 n1 : ℕ) (hi : i < n0) (hj : j < n1) : i * n1 + j < n0 * n1 := by
  calc i * n1 + j < (i + 1) * n1 := by
        have h : (i + 1) * n1 = i * n1 + n1 := by ring
        omega
    _ ≤ n0 * n1 := Nat.mul_le_mul_right n1 (by omega)

theorem rmedian_eq_median_filter (data : NDArray) (r_inner r_outer : ℚ) (invert : Bool)
    (hle : r_inner ≤ r_outer) :
    rmedian data r_inner r_outer invert =
      median_filter data (ringFootprint r_inner r_outer invert) := by
  unfold rmedian
  rw [show _ring r_inner r_outer invert = .ok (ringFootprint r_inner r_outer invert) from by
    unfold _ring; rw [if_pos hle]]

theorem statMedian_window_const (n0 n1 : ℕ) (c : ℚ) (offs : List (ℤ × ℤ))
    (hoffs : offs ≠ []) (hn0 : 0 < n0) (hn1 : 0 < n1) (i j : ℕ) :
    statMedian (windowValues ⟨[n0, n1], List.replicate (n0 * n1) c⟩ offs i j) = c := by
  apply statMedian_of_all_eq
  · unfold windowValues
    simpa using hoffs
  · intro x hx
    unfold windowValues at hx
    obtain ⟨o, ho, rfl⟩ := List.mem_map.mp hx
    unfold reflectGet get2
    dsimp only
    simp only [List.getD_cons_zero, List.getD_cons_succ]
    have h1 : reflectIdx n0 ((i : ℤ) + o.1) < n0 := reflectIdx_lt n0 hn0 _
    have h2 : reflectIdx n1 ((j : ℤ) + o.2) < n1 := reflectIdx_lt n1 hn1 _
    rw [List.getD_eq_getElem?_getD, List.getElem?_replicate,
      if_pos (idx2_lt _ _ _ _ h1 h2)]
    rfl

theorem rmedian_const_ok (n0 n1 : ℕ) (c : ℚ) (r_inner r_outer : ℚ)
    (hle : r_inner ≤ r_outer)
    (hne : (fpOffsets (ringFootprint r_inner r_outer false)).isEmpty = false) :
    rmedian ⟨[n0, n1], List.replicate (n0 * n1) c⟩ r_inner r_outer false =
      .ok ⟨[n0, n1], List.replicate (n0 * n1) c⟩ := by
  have hoffs : fpOffsets (ringFootprint r_inner r_outer false) ≠ [] :=
    List.isEmpty_eq_false.mp hne
  rw [rmedian_eq_median_filter _ _ _ _ hle,
    median_filter_ok_of ⟨[n0, n1], List.replicate (n0 * n1) c⟩ _ rfl hne]
  refine congrArg Except.ok ?_
  have hsh : (⟨[n0, n1], List.replicate (n0 * n1) c⟩ : NDArray).shape = [n0, n1] := rfl
  have h0 : (⟨[n0, n1], List.replicate (n0 * n1) c⟩ : NDArray).shape.getD 0 0 = n0 := rfl
  have h1 : (⟨[n0, n1], List.replicate (n0 * n1) c⟩ : NDArray).shape.getD 1 0 = n1 := rfl
  rw [NDArray.mk.injEq]
  refine ⟨hsh, ?_⟩
  rw [h0, h1]
  rw [List.eq_replicate_iff]
  refine ⟨by simp, ?_⟩
  intro b hb
  obtain ⟨k, hk, rfl⟩ := List.mem_map.mp hb
  rw [List.mem_range] at hk
  have hn1 : 0 < n1 := by
    rcases Nat.eq_zero_or_pos n1 with h | h
    · subst h; omega
    · exact h
  have hn0 : 0 < n0 := by
    rcases Nat.eq_zero_or_pos n0 with h | h
    · subst h; omega
    · exact h
  exact statMedian_window_const n0 n1 c _ hoffs hn0 hn1 _ _

theorem offsets01_nonempty :
    (fpOffsets (ringFootprint 0 1 false)).isEmpty = false := by
  have htz : truncToZero 1 = 1 := by norm_num [truncToZero]
  have hlen : (ringFootprint (0 : ℚ) 1 false).length = 3 := by
    rw [ringFootprint_length, htz]
    decide
  apply fpOffsets_isEmpty_eq_false _ 1 2
  · omega
  · rw [ringFootprint_headD_length]
    omega
  · rw [ringFootprint_cell 0 1 false 1 2 (by omega) (by omega), htz]
    have hone : ringCell (0 : ℚ) 1 false 0 1 = 1 := by
      rw [ringCell_eq_one_iff]
      constructor
      · unfold distGT
        rw [decide_eq_true_iff]
        norm_num
      · unfold distLE
        rw [decide_eq_true_iff]
        norm_num
    have harg1 : (-1 + ((1 : ℕ) : ℤ)) = 0 := by norm_num
    have harg2 : (-1 + ((2 : ℕ) : ℤ)) = 1 := by norm_num
    rw [harg1, harg2, hone]
    norm_num

/-- C1: for a 2-D image and valid radii `0 ≤ r_inner ≤ r_outer` whose ring
footprint has at least one active cell, `rmedian` returns an array of the
same shape in which every pixel is the statistical median of exactly the
input pixels selected by the `1`-valued footprint cells centered there
(`0`-valued cells select nothing — a selection mask, not a weighted
average). -/
theorem rmedian_is_ring_median (data : NDArray) (r_inner r_outer : ℚ) (n0 n1 : ℕ)
    (hshape : data.shape = [n0, n1]) (h0 : 0 ≤ r_inner) (hle : r_inner ≤ r_outer)
    (hne : (fpOffsets (ringFootprint r_inner r_outer false)).isEmpty = false) :
    ∃ out : NDArray, rmedian data r_inner r_outer false = .ok out ∧
      out.shape = data.shape ∧
      ∀ i j : ℕ, i < n0 → j < n1 →
        get2 out i j = statMedian (selectedValues data r_inner r_outer i j) := by
  have hdim : data.shape.length = 2 := by rw [hshape]; rfl
  have hmf := median_filter_ok_of data (ringFootprint r_inner r_outer false) hdim hne
  refine ⟨⟨data.shape,
      (List.range (data.shape.getD 0 0 * data.shape.getD 1 0)).map fun (k : ℕ) =>
        statMedian (windowValues data (fpOffsets (ringFootprint r_inner r_outer false))
          (k / data.shape.getD 1 0) (k % data.shape.getD 1 0))⟩,
    by rw [rmedian_eq_median_filter _ _ _ _ hle]; exact hmf, rfl, ?_⟩
  intro i j hi hj
  have hpix := (median_filter_pixel data (ringFootprint r_inner r_outer false) _
    n0 n1 hshape hmf i j hi hj).2
  rw [hpix, windowValues_ring_eq_selected]

/-- C1 witness: applied to the 2 × 2 image `[[1,2],[3,4]]` with radii
`r_inner = 0, r_outer = 1`. -/
theorem rmedian_is_ring_median_witness :
    (⟨[2, 2], [1, 2, 3, 4]⟩ : NDArray).shape = [2, 2] ∧ (0 : ℚ) ≤ 0 ∧ (0 : ℚ) ≤ 1 ∧
      (∃ out : NDArray, rmedian ⟨[2, 2], [1, 2, 3, 4]⟩ 0 1 false = .ok out ∧
        out.shape = (⟨[2, 2], [1, 2, 3, 4]⟩ : NDArray).shape ∧
        ∀ i j : ℕ, i < 2 → j < 2 →
          get2 out i j = statMedian (selectedValues ⟨[2, 2], [1, 2, 3, 4]⟩ 0 1 i j)) :=
  ⟨rfl, by norm_num, by norm_num,
    rmedian_is_ring_median ⟨[2, 2], [1, 2, 3, 4]⟩ 0 1 2 2 rfl (by norm_num) (by norm_num)
      offsets01_nonempty⟩

/-- C8: filtering a constant-valued 2-D image with any valid ring footprint
that has at least one active cell returns the same constant image
unchanged. -/
theorem rmedian_constant_image (n0 n1 : ℕ) (c : ℚ) (r_inner r_outer : ℚ)
    (hle : r_inner ≤ r_outer)
    (hne : (fpOffsets (ringFootprint r_inner r_outer false)).isEmpty = false) :
    rmedian ⟨[n0, n1], List.replicate (n0 * n1) c⟩ r_inner r_outer false =
      .ok ⟨[n0, n1], List.replicate (n0 * n1) c⟩ :=
  rmedian_const_ok n0 n1 c r_inner r_outer hle hne

/-- C8 witness: the constant 2 × 3 image of value `7` with radii `0, 1` is
returned unchanged. -/
theorem rmedian_constant_image_witness :
    rmedian ⟨[2, 3], List.replicate (2 * 3) 7⟩ 0 1 false =
      .ok ⟨[2, 3], List.replicate (2 * 3) 7⟩ :=
  rmedian_constant_image 2 3 7 0 1 (by norm_num) offsets01_nonempty

/-- C10: the boundary policy of `rmedian` is `reflect`: for every extension
of the image that is invariant under reflection about each of the four
edges, every output pixel — including those whose window extends past the
image edge — is the median of the footprint-selected values of that
extended image. -/
theorem rmedian_reflect_boundary (data out : NDArray) (r_inner r_outer : ℚ)
    (n0 n1 : ℕ) (ext : ℤ → ℤ → ℚ)
    (hshape : data.shape = [n0, n1]) (hn0 : 0 < n0) (hn1 : 0 < n1)
    (hok : rmedian data r_inner r_outer false = .ok out)
    (hin : ∀ i j : ℕ, i < n0 → j < n1 → ext (i : ℤ) (j : ℤ) = get2 data i j)
    (hL0 : ∀ i j : ℤ, ext (-1 - i) j = ext i j)
    (hR0 : ∀ i j : ℤ, ext (2 * (n0 : ℤ) - 1 - i) j = ext i j)
    (hL1 : ∀ i j : ℤ, ext i (-1 - j) = ext i j)
    (hR1 : ∀ i j : ℤ, ext i (2 * (n1 : ℤ) - 1 - j) = ext i j) :
    ∀ i j : ℕ, i < n0 → j < n1 →
      get2 out i j = statMedian
        ((fpOffsets (ringFootprint r_inner r_outer false)).map
          fun o => ext ((i : ℤ) + o.1) ((j : ℤ) + o.2)) := by
  intro i j hi hj
  have hmf := rmedian_ok_elim data r_inner r_outer false out hok
  have hpix := (median_filter_pixel data (ringFootprint r_inner r_outer false) out
    n0 n1 hshape hmf i j hi hj).2
  rw [hpix]
  unfold windowValues
  congr 1
  apply List.map_congr_left
  intro o ho
  have hext2 : ∀ y x : ℤ, ext y x = get2 data (reflectIdx n0 y) (reflectIdx n1 x) := by
    intro y x
    have e1 : ext y x = ext ((reflectIdx n0 y : ℕ) : ℤ) x :=
      reflect_ext_eq n0 hn0 (fun t => ext t x) (fun t => hL0 t x) (fun t => hR0 t x) y
    have e2 : ext ((reflectIdx n0 y : ℕ) : ℤ) x =
        ext ((reflectIdx n0 y : ℕ) : ℤ) ((reflectIdx n1 x : ℕ) : ℤ) :=
      reflect_ext_eq n1 hn1 (fun t => ext ((reflectIdx n0 y : ℕ) : ℤ) t)
        (fun t => hL1 _ t) (fun t => hR1 _ t) x
    rw [e1, e2, hin _ _ (reflectIdx_lt n0 hn0 y) (reflectIdx_lt n1 hn1 x)]
  rw [hext2]
  unfold reflectGet
  rw [hshape]
  rfl

/-- C10 witness: the 1 × 1 image `[[5]]` with radii `0, 1`; the constant
extension `5` is reflect-invariant, and every window pixel reflects back
into the image. -/
theorem rmedian_reflect_boundary_witness :
    (⟨[1, 1], [5]⟩ : NDArray).shape = [1, 1] ∧
      rmedian ⟨[1, 1], [5]⟩ 0 1 false = .ok ⟨[1, 1], [5]⟩ ∧
      ∀ i j : ℕ, i < 1 → j < 1 →
        get2 ⟨[1, 1], [5]⟩ i j = statMedian
          ((fpOffsets (ringFootprint 0 1 false)).map fun _ => (5 : ℚ)) := by
  have hok : rmedian ⟨[1, 1], [5]⟩ 0 1 false = .ok ⟨[1, 1], [5]⟩ :=
    rmedian_const_ok 1 1 5 0 1 (by norm_num) offsets01_nonempty
  refine ⟨rfl, hok, ?_⟩
  exact rmedian_reflect_boundary ⟨[1, 1], [5]⟩ ⟨[1, 1], [5]⟩ 0 1 1 1
    (fun _ _ => (5 : ℚ)) rfl (by norm_num) (by norm_num) hok
    (by
      intro i j hi hj
      have hi0 : i = 0 := by omega
      have hj0 : j = 0 := by omega
      subst hi0; subst hj0; rfl)
    (fun _ _ => rfl) (fun _ _ => rfl) (fun _ _ => rfl) (fun _ _ => rfl)
